import Mathlib

/-!
Verification of the loan-calculator computational core.

The embedded functions mirror `streamlit_app.py`:
`compute_emi`, `amortization_schedule` (its while loop becomes the
fuel-bounded recursion `amortLoop`, the fuel being the remaining number of
iterations allowed by the condition `m < months + 600`), and
`sensitivity_table`.  Currency amounts are modelled by exact rationals;
calendar dates are modelled by an integer month index, with
`relativedelta(months=k)` becoming integer addition.
-/

/-- One row of the amortization schedule, mirroring the dict appended to
`rows` in `amortization_schedule`. -/
structure PeriodRecord where
  installmentNumber : Nat
  periodDate : Int
  openingBalance : Rat
  scheduledPayment : Rat
  extraPayment : Rat
  interestPortion : Rat
  principalPortion : Rat
  totalPayment : Rat
  closingBalance : Rat
deriving DecidableEq

/-- Embedding of `compute_emi` from `streamlit_app.py`. -/
def compute_emi (principal annual_rate_pct : Rat) (months : Int) : Rat :=
  if months ≤ 0 then 0
  else
    let r := annual_rate_pct / 12 / 100
    if r = 0 then principal / (months : Rat)
    else principal * r * (1 + r) ^ months.toNat / ((1 + r) ^ months.toNat - 1)

/-- Modelled from the spec (section 4.1): the closed-form EMI the spec
describes, written from the words of the spec for the refinement claim C1. -/
def computeEMI_spec (principal annualRatePercent : Rat) (termMonths : Int) : Rat :=
  if termMonths ≤ 0 then 0
  else
    let r := annualRatePercent / 12 / 100
    if r = 0 then principal / (termMonths : Rat)
    else principal * r * (1 + r) ^ termMonths.toNat /
      ((1 + r) ^ termMonths.toNat - 1)

/-- The `interest` computed in one loop iteration of `amortization_schedule`. -/
def interestOf (r b : Rat) : Rat :=
  if r = 0 then 0 else b * r

/-- The unclamped `principal_component` of one loop iteration
(`pay` stands for `emi + extra_payment`). -/
def rawPC (r pay b : Rat) : Rat :=
  if r = 0 then min pay b else min (pay - b * r) b

/-- The `if principal_component < 0: principal_component = 0.0` guard. -/
def clampPC (x : Rat) : Rat :=
  if x < 0 then 0 else x

/-- The `principal_component` after the negative guard. -/
def pcOf (r pay b : Rat) : Rat :=
  clampPC (rawPC r pay b)

/-- The balance after one loop iteration (`new_balance`). -/
def stepBal (r pay b : Rat) : Rat :=
  b - pcOf r pay b

/-- The row appended by one iteration of the loop of
`amortization_schedule`, for loop counter value `m + 1` and opening balance
`balance` (`curr_date = start + relativedelta(months=+(m - 1))` becomes
`start + m` with the pre-increment counter). -/
def mkRow (r emi extra : Rat) (start : Int) (m : Nat) (balance : Rat) : PeriodRecord :=
  let interest := interestOf r balance
  let pc := pcOf r (emi + extra) balance
  { installmentNumber := m + 1
    periodDate := start + (m : Int)
    openingBalance := balance
    scheduledPayment := emi
    extraPayment := extra
    interestPortion := interest
    principalPortion := pc
    totalPayment := pc + interest
    closingBalance := balance - pc }

/-- The while loop of `amortization_schedule`.  `fuel` is the number of
iterations still allowed by `m < months + 600`; `m` is the Python loop
counter before the `m += 1` of the next iteration; `rows` accumulates the
emitted rows in reverse order.  The loop body appends `mkRow`, updates the
balance to `stepBal` (that is, `balance - principal_component`), and breaks
when the new balance is at most `0.01`. -/
def amortLoop (r emi extra : Rat) (start : Int) :
    Nat → Rat → Nat → List PeriodRecord → List PeriodRecord
  | 0, _, _, rows => rows.reverse
  | fuel + 1, balance, m, rows =>
    if 0 < balance then
      if stepBal r (emi + extra) balance ≤ 1 / 100 then
        (mkRow r emi extra start m balance :: rows).reverse
      else
        amortLoop r emi extra start fuel (stepBal r (emi + extra) balance) (m + 1)
          (mkRow r emi extra start m balance :: rows)
    else rows.reverse

/-- The post-processing step `df.loc[df.index[-1], "Closing Balance"] = 0.0`:
force the closing balance of the last row to exactly 0. -/
def zeroSnap : List PeriodRecord → List PeriodRecord
  | [] => []
  | [row] => [{ row with closingBalance := 0 }]
  | row :: rest => row :: zeroSnap rest

/-- Embedding of `amortization_schedule` from `streamlit_app.py`. -/
def amortization_schedule (principal annual_rate_pct : Rat) (months : Int)
    (start : Int) (extra_payment : Rat) : List PeriodRecord :=
  let r := annual_rate_pct / 12 / 100
  let emi := compute_emi principal annual_rate_pct months
  zeroSnap (amortLoop r emi extra_payment start (months + 600).toNat principal 0 [])

/-- Number of rows the loop emits, as a recursion with the same shape as
`amortLoop`. -/
def loopLen (r pay : Rat) : Nat → Rat → Nat
  | 0, _ => 0
  | fuel + 1, b =>
    if 0 < b then
      if stepBal r pay b ≤ 1 / 100 then 1
      else 1 + loopLen r pay fuel (stepBal r pay b)
    else 0

/-- Balance held when the loop exits, as a recursion with the same shape as
`amortLoop`. -/
def loopBal (r pay : Rat) : Nat → Rat → Rat
  | 0, b => b
  | fuel + 1, b =>
    if 0 < b then
      if stepBal r pay b ≤ 1 / 100 then stepBal r pay b
      else loopBal r pay fuel (stepBal r pay b)
    else b

/-- The balance after `k` unconditional applications of the loop body
(no epsilon break, no fuel): the mathematical balance sequence. -/
def stepIter (r pay : Rat) : Nat → Rat → Rat
  | 0, b => b
  | k + 1, b => stepIter r pay k (stepBal r pay b)

/-- Sum of the principal portions of a schedule. -/
def sumPC (l : List PeriodRecord) : Rat :=
  (l.map (fun row => row.principalPortion)).sum

/-- Python `int()` applied to a rational: truncation toward zero. -/
def pyInt (q : Rat) : Int :=
  if 0 ≤ q then ⌊q⌋ else ⌈q⌉

/-- Embedding of `sensitivity_table` from `streamlit_app.py`: one output row
per rate, holding the rate itself (the `"Rate %"` column) and one EMI per
tenure (`int(y * 12)` months).  The `base_rate` argument is part of the
signature (it is only a cache key in the source) and does not influence the
result. -/
def sensitivity_table (principal base_rate : Rat) (years_list rate_list : List Rat) :
    List (Rat × List Rat) :=
  rate_list.map (fun r =>
    (r, years_list.map (fun y => compute_emi principal r (pyInt (y * 12)))))

/-! ### Basic facts about the loop body -/

theorem pcOf_eq (r pay b : Rat) : pcOf r pay b = clampPC (min (pay - b * r) b) := by
  unfold pcOf rawPC
  split
  · next h => simp [h]
  · rfl

theorem stepBal_min_max (r pay b : Rat) (hb : 0 ≤ b) :
    stepBal r pay b = min b (max (b * (1 + r) - pay) 0) := by
  simp only [stepBal, pcOf_eq, clampPC, min_def, max_def]
  split_ifs <;> nlinarith

theorem stepBal_nonneg {b : Rat} (r pay : Rat) (hb : 0 ≤ b) : 0 ≤ stepBal r pay b := by
  rw [stepBal_min_max r pay b hb]
  exact le_min hb (le_max_right _ _)

theorem stepBal_le_self {b : Rat} (r pay : Rat) (hb : 0 ≤ b) : stepBal r pay b ≤ b := by
  rw [stepBal_min_max r pay b hb]
  exact min_le_left _ _

theorem stepBal_mono {r pay pay' b b' : Rat} (hr : 0 ≤ r) (hb' : 0 ≤ b')
    (hbb : b' ≤ b) (hpay : pay ≤ pay') :
    stepBal r pay' b' ≤ stepBal r pay b := by
  rw [stepBal_min_max r pay' b' hb', stepBal_min_max r pay b (hb'.trans hbb)]
  have hmul : b' * (1 + r) ≤ b * (1 + r) :=
    mul_le_mul_of_nonneg_right hbb (by linarith)
  exact min_le_min hbb (max_le_max (by linarith) le_rfl)

theorem stepIter_succ_outer (r pay : Rat) :
    ∀ (k : Nat) (b : Rat), stepIter r pay (k + 1) b = stepBal r pay (stepIter r pay k b) := by
  intro k
  induction k with
  | zero => intro b; rfl
  | succ n ih =>
      intro b
      calc stepIter r pay (n + 1 + 1) b = stepIter r pay (n + 1) (stepBal r pay b) := rfl
        _ = stepBal r pay (stepIter r pay n (stepBal r pay b)) := ih _
        _ = stepBal r pay (stepIter r pay (n + 1) b) := rfl

theorem stepIter_nonneg (r pay : Rat) :
    ∀ (k : Nat) (b : Rat), 0 ≤ b → 0 ≤ stepIter r pay k b := by
  intro k
  induction k with
  | zero => intro b hb; exact hb
  | succ n ih => intro b hb; exact ih _ (stepBal_nonneg r pay hb)

theorem stepIter_mono {r pay pay' : Rat} (hr : 0 ≤ r) (hpay : pay ≤ pay') :
    ∀ (k : Nat) (b b' : Rat), 0 ≤ b' → b' ≤ b →
      stepIter r pay' k b' ≤ stepIter r pay k b := by
  intro k
  induction k with
  | zero => intro b b' _ hbb; exact hbb
  | succ n ih =>
      intro b b' hb' hbb
      exact ih _ _ (stepBal_nonneg r pay' hb') (stepBal_mono hr hb' hbb hpay)

/-! ### Relating the loop to its length, exit balance and emitted sums -/

theorem amortLoop_length (r e x : Rat) (s : Int) :
    ∀ (fuel : Nat) (b : Rat) (m : Nat) (rows : List PeriodRecord),
      (amortLoop r e x s fuel b m rows).length = rows.length + loopLen r (e + x) fuel b := by
  intro fuel
  induction fuel with
  | zero => intro b m rows; simp [amortLoop, loopLen]
  | succ f ih =>
      intro b m rows
      simp only [amortLoop, loopLen]
      by_cases hb : 0 < b
      · rw [if_pos hb, if_pos hb]
        by_cases hs : stepBal r (e + x) b ≤ 1 / 100
        · rw [if_pos hs, if_pos hs]
          simp
        · rw [if_neg hs, if_neg hs, ih]
          simp only [List.length_cons]
          omega
      · rw [if_neg hb, if_neg hb]
        simp

theorem sumPC_reverse (l : List PeriodRecord) : sumPC l.reverse = sumPC l := by
  simp [sumPC, List.sum_reverse]

theorem sumPC_cons (row : PeriodRecord) (l : List PeriodRecord) :
    sumPC (row :: l) = row.principalPortion + sumPC l := by
  simp [sumPC]

theorem amortLoop_sumPC (r e x : Rat) (s : Int) :
    ∀ (fuel : Nat) (b : Rat) (m : Nat) (rows : List PeriodRecord),
      sumPC (amortLoop r e x s fuel b m rows) =
        sumPC rows + (b - loopBal r (e + x) fuel b) := by
  intro fuel
  induction fuel with
  | zero => intro b m rows; simp [amortLoop, loopBal, sumPC_reverse]
  | succ f ih =>
      intro b m rows
      simp only [amortLoop, loopBal]
      by_cases hb : 0 < b
      · rw [if_pos hb, if_pos hb]
        have hpc : (mkRow r e x s m b).principalPortion = b - stepBal r (e + x) b := by
          simp [mkRow, stepBal]
        by_cases hs : stepBal r (e + x) b ≤ 1 / 100
        · rw [if_pos hs, if_pos hs, sumPC_reverse, sumPC_cons, hpc]
          ring
        · rw [if_neg hs, if_neg hs, ih, sumPC_cons, hpc]
          ring
      · rw [if_neg hb, if_neg hb, sumPC_reverse]
        ring

theorem loopLen_le_fuel (r pay : Rat) :
    ∀ (fuel : Nat) (b : Rat), loopLen r pay fuel b ≤ fuel := by
  intro fuel
  induction fuel with
  | zero => intro b; simp [loopLen]
  | succ f ih =>
      intro b
      simp only [loopLen]
      split_ifs
      · omega
      · have := ih (stepBal r pay b); omega
      · omega

theorem loopBal_nonneg (r pay : Rat) :
    ∀ (fuel : Nat) (b : Rat), 0 ≤ b → 0 ≤ loopBal r pay fuel b := by
  intro fuel
  induction fuel with
  | zero => intro b hb; exact hb
  | succ f ih =>
      intro b hb
      simp only [loopBal]
      split_ifs
      · exact stepBal_nonneg r pay hb
      · exact ih _ (stepBal_nonneg r pay hb)
      · exact hb

theorem loopBal_le_eps (r pay : Rat) :
    ∀ (fuel : Nat) (b : Rat), 0 ≤ b →
      (∃ k ≤ fuel, stepIter r pay k b ≤ 1 / 100) →
      loopBal r pay fuel b ≤ 1 / 100 := by
  intro fuel
  induction fuel with
  | zero =>
      intro b hb h
      obtain ⟨k, hk, hle⟩ := h
      interval_cases k
      exact hle
  | succ f ih =>
      intro b hb h
      obtain ⟨k, hk, hle⟩ := h
      simp only [loopBal]
      by_cases hbpos : 0 < b
      · rw [if_pos hbpos]
        by_cases hs : stepBal r pay b ≤ 1 / 100
        · rw [if_pos hs]; exact hs
        · rw [if_neg hs]
          apply ih _ (stepBal_nonneg r pay hb)
          cases k with
          | zero =>
              exfalso
              exact hs ((stepBal_le_self r pay hb).trans hle)
          | succ j => exact ⟨j, by omega, hle⟩
      · rw [if_neg hbpos]
        linarith [not_lt.mp hbpos]

theorem loopLen_anti {r pay pay' : Rat} (hr : 0 ≤ r) (hpay : pay ≤ pay') :
    ∀ (fuel : Nat) (b b' : Rat), 0 ≤ b' → b' ≤ b →
      loopLen r pay' fuel b' ≤ loopLen r pay fuel b := by
  intro fuel
  induction fuel with
  | zero => intro b b' _ _; simp [loopLen]
  | succ f ih =>
      intro b b' hb' hbb
      simp only [loopLen]
      by_cases hb'pos : 0 < b'
      · have hbpos : 0 < b := lt_of_lt_of_le hb'pos hbb
        rw [if_pos hb'pos, if_pos hbpos]
        have hstep : stepBal r pay' b' ≤ stepBal r pay b := stepBal_mono hr hb' hbb hpay
        by_cases hs : stepBal r pay b ≤ 1 / 100
        · rw [if_pos hs, if_pos (hstep.trans hs)]
        · rw [if_neg hs]
          by_cases hs' : stepBal r pay' b' ≤ 1 / 100
          · rw [if_pos hs']; omega
          · rw [if_neg hs']
            have := ih _ _ (stepBal_nonneg r pay' hb') hstep
            omega
      · rw [if_neg hb'pos]
        exact Nat.zero_le _

theorem loopLen_exact (r pay : Rat) :
    ∀ (N fuel : Nat) (b : Rat), 0 < N → N ≤ fuel → 0 < b →
      (∀ k, k < N → 0 < k → 1 / 100 < stepIter r pay k b) →
      stepIter r pay N b ≤ 1 / 100 →
      loopLen r pay fuel b = N := by
  intro N
  induction N with
  | zero => intro fuel b h; omega
  | succ n ih =>
      intro fuel b _ hfuel hb hmid hstop
      obtain ⟨f, rfl⟩ : ∃ f, fuel = f + 1 := ⟨fuel - 1, by omega⟩
      simp only [loopLen, if_pos hb]
      by_cases hs : stepBal r pay b ≤ 1 / 100
      · rw [if_pos hs]
        rcases Nat.eq_zero_or_pos n with h0 | hpos
        · omega
        · exfalso
          have h1 := hmid 1 (by omega) (by omega)
          simp only [stepIter] at h1
          exact absurd hs (not_le.mpr h1)
      · rw [if_neg hs]
        rcases Nat.eq_zero_or_pos n with h0 | hpos
        · exfalso
          subst h0
          simp only [stepIter] at hstop
          exact hs hstop
        · have hrec : loopLen r pay f (stepBal r pay b) = n := by
            apply ih f (stepBal r pay b) hpos (by omega)
              (lt_trans (by norm_num) (not_le.mp hs))
            · intro k hk hkpos
              have := hmid (k + 1) (by omega) (by omega)
              simpa [stepIter] using this
            · simpa [stepIter] using hstop
          omega

/-! ### Facts about the zero-snap post-processing -/

theorem zeroSnap_length : ∀ l : List PeriodRecord, (zeroSnap l).length = l.length
  | [] => rfl
  | [_] => rfl
  | a :: b :: t => by simp [zeroSnap, zeroSnap_length (b :: t)]

theorem zeroSnap_cons_cons (a b : PeriodRecord) (t : List PeriodRecord) :
    zeroSnap (a :: b :: t) = a :: zeroSnap (b :: t) := rfl

theorem zeroSnap_exists_cons (a : PeriodRecord) (l : List PeriodRecord) :
    ∃ c l', zeroSnap (a :: l) = c :: l' := by
  cases l
  · exact ⟨_, _, rfl⟩
  · exact ⟨_, _, rfl⟩

theorem zeroSnap_getLast :
    ∀ (l : List PeriodRecord) (rec : PeriodRecord),
      (zeroSnap l).getLast? = some rec → rec.closingBalance = 0
  | [], rec => by simp [zeroSnap]
  | [a], rec => by
      simp only [zeroSnap, List.getLast?_singleton, Option.some.injEq]
      intro h
      rw [← h]
  | a :: b :: t, rec => by
      obtain ⟨c, l', hc⟩ := zeroSnap_exists_cons b t
      rw [zeroSnap_cons_cons, hc, List.getLast?_cons_cons]
      intro h
      exact zeroSnap_getLast (b :: t) rec (by rw [hc]; exact h)

theorem zeroSnap_dropLast : ∀ l : List PeriodRecord, (zeroSnap l).dropLast = l.dropLast
  | [] => rfl
  | [_] => rfl
  | a :: b :: t => by
      obtain ⟨c, l', hc⟩ := zeroSnap_exists_cons b t
      rw [zeroSnap_cons_cons, hc, List.dropLast_cons₂, ← hc,
        zeroSnap_dropLast (b :: t), List.dropLast_cons₂]

theorem zeroSnap_sumPC : ∀ l : List PeriodRecord, sumPC (zeroSnap l) = sumPC l
  | [] => rfl
  | [a] => by simp [zeroSnap, sumPC]
  | a :: b :: t => by
      rw [zeroSnap_cons_cons, sumPC_cons, sumPC_cons, zeroSnap_sumPC (b :: t)]

theorem zeroSnap_closing_nonneg :
    ∀ l : List PeriodRecord, (∀ row ∈ l, 0 ≤ row.closingBalance) →
      ∀ row ∈ zeroSnap l, 0 ≤ row.closingBalance
  | [] => by simp [zeroSnap]
  | [a] => by
      intro _ row hrow
      simp only [zeroSnap, List.mem_singleton] at hrow
      rw [hrow]
  | a :: b :: t => by
      intro h row hrow
      rw [zeroSnap_cons_cons, List.mem_cons] at hrow
      rcases hrow with h1 | h2
      · rw [h1]; exact h a (by simp)
      · exact zeroSnap_closing_nonneg (b :: t)
          (fun row hr => h row (List.mem_cons_of_mem a hr)) row h2

/-! ### Row invariants of the loop -/

theorem amortLoop_inv (r e x : Rat) (s : Int) :
    ∀ (fuel : Nat) (b : Rat) (m : Nat) (rows : List PeriodRecord), 0 ≤ b →
      (∀ row ∈ rows, row.closingBalance = row.openingBalance - row.principalPortion ∧
        0 ≤ row.closingBalance) →
      ∀ row ∈ amortLoop r e x s fuel b m rows,
        row.closingBalance = row.openingBalance - row.principalPortion ∧
          0 ≤ row.closingBalance := by
  intro fuel
  induction fuel with
  | zero =>
      intro b m rows _ hrows row hrow
      rw [amortLoop, List.mem_reverse] at hrow
      exact hrows row hrow
  | succ f ih =>
      intro b m rows hb hrows row hrow
      have hnew : (mkRow r e x s m b).closingBalance =
            (mkRow r e x s m b).openingBalance - (mkRow r e x s m b).principalPortion ∧
          0 ≤ (mkRow r e x s m b).closingBalance := by
        constructor
        · simp [mkRow]
        · exact stepBal_nonneg r (e + x) hb
      simp only [amortLoop] at hrow
      by_cases hbpos : 0 < b
      · rw [if_pos hbpos] at hrow
        by_cases hs : stepBal r (e + x) b ≤ 1 / 100
        · rw [if_pos hs, List.mem_reverse, List.mem_cons] at hrow
          rcases hrow with h1 | h2
          · rw [h1]; exact hnew
          · exact hrows row h2
        · rw [if_neg hs] at hrow
          refine ih _ _ _ (stepBal_nonneg r (e + x) hb) ?_ row hrow
          intro row' hrow'
          rcases List.mem_cons.mp hrow' with h1 | h2
          · rw [h1]; exact hnew
          · exact hrows row' h2
      · rw [if_neg hbpos, List.mem_reverse] at hrow
        exact hrows row hrow

theorem amortLoop_nil_of_nonpos (r e x : Rat) (s : Int) (b : Rat) (m : Nat)
    (hb : ¬ 0 < b) : ∀ fuel, amortLoop r e x s fuel b m [] = [] := by
  intro fuel
  cases fuel <;> simp [amortLoop, hb]

/-! ### Exact payoff: the balance sequence reaches 0 after `termMonths` steps -/

theorem stepIter_zero_rate (P : Rat) (hP : 0 ≤ P) (N : Nat) (hN : 0 < N) :
    ∀ k, k ≤ N → stepIter 0 (P / (N : Rat)) k P = P * ((N : Rat) - (k : Rat)) / N := by
  have hNQ : (0 : Rat) < (N : Rat) := by exact_mod_cast hN
  intro k
  induction k with
  | zero =>
      intro _
      simp only [stepIter, Nat.cast_zero, sub_zero]
      field_simp
  | succ n ih =>
      intro hn
      have hn' : n ≤ N := Nat.le_of_succ_le hn
      rw [stepIter_succ_outer, ih hn']
      have hcast : ((n : Rat)) ≤ (N : Rat) := by exact_mod_cast hn'
      have hcast' : ((n : Rat) + 1) ≤ (N : Rat) := by exact_mod_cast hn
      have hb : 0 ≤ P * ((N : Rat) - (n : Rat)) / N :=
        div_nonneg (mul_nonneg hP (by linarith)) hNQ.le
      rw [stepBal_min_max _ _ _ hb]
      have hE : P * ((N : Rat) - (n : Rat)) / N * (1 + 0) - P / N =
          P * ((N : Rat) - ((n : Nat) + 1 : Nat)) / N := by
        push_cast
        field_simp
        ring
      rw [hE]
      have hE0 : 0 ≤ P * ((N : Rat) - ((n : Nat) + 1 : Nat)) / N := by
        push_cast
        exact div_nonneg (mul_nonneg hP (by linarith)) hNQ.le
      rw [max_eq_left hE0]
      apply min_eq_right
      push_cast
      exact (div_le_div_iff_of_pos_right hNQ).mpr (mul_le_mul_of_nonneg_left (by linarith) hP)

theorem stepIter_pos_rate (P r : Rat) (hP : 0 ≤ P) (hr : 0 < r) (N : Nat) (hN : 0 < N) :
    ∀ k, k ≤ N →
      stepIter r (P * r * (1 + r) ^ N / ((1 + r) ^ N - 1)) k P =
        P * ((1 + r) ^ N - (1 + r) ^ k) / ((1 + r) ^ N - 1) := by
  have h1r : (0 : Rat) < 1 + r := by linarith
  have hA : (1 : Rat) < (1 + r) ^ N := one_lt_pow₀ (by linarith) hN.ne'
  have hA1 : (0 : Rat) < (1 + r) ^ N - 1 := by linarith
  intro k
  induction k with
  | zero =>
      intro _
      simp only [stepIter, pow_zero]
      field_simp
  | succ n ih =>
      intro hn
      have hn' : n ≤ N := Nat.le_of_succ_le hn
      rw [stepIter_succ_outer, ih hn']
      have hpow_le : (1 + r) ^ n ≤ (1 + r) ^ N := pow_le_pow_right₀ (by linarith) hn'
      have hpow_le' : (1 + r) ^ (n + 1) ≤ (1 + r) ^ N := pow_le_pow_right₀ (by linarith) hn
      have hpow_mono : (1 + r) ^ n ≤ (1 + r) ^ (n + 1) :=
        pow_le_pow_right₀ (by linarith) (Nat.le_succ n)
      have hb : 0 ≤ P * ((1 + r) ^ N - (1 + r) ^ n) / ((1 + r) ^ N - 1) :=
        div_nonneg (mul_nonneg hP (by linarith)) hA1.le
      rw [stepBal_min_max _ _ _ hb]
      have hE : P * ((1 + r) ^ N - (1 + r) ^ n) / ((1 + r) ^ N - 1) * (1 + r) -
            P * r * (1 + r) ^ N / ((1 + r) ^ N - 1) =
          P * ((1 + r) ^ N - (1 + r) ^ (n + 1)) / ((1 + r) ^ N - 1) := by
        rw [pow_succ]
        field_simp
        ring
      rw [hE]
      have hE0 : 0 ≤ P * ((1 + r) ^ N - (1 + r) ^ (n + 1)) / ((1 + r) ^ N - 1) :=
        div_nonneg (mul_nonneg hP (by linarith)) hA1.le
      rw [max_eq_left hE0]
      apply min_eq_right
      exact (div_le_div_iff_of_pos_right hA1).mpr (mul_le_mul_of_nonneg_left (by linarith) hP)

theorem loopLen_const_balance (r pay b : Rat) (hb : 0 < b)
    (heps : ¬ stepBal r pay b ≤ 1 / 100) (hconst : stepBal r pay b = b) :
    ∀ fuel, loopLen r pay fuel b = fuel := by
  intro fuel
  induction fuel with
  | zero => rfl
  | succ f ih =>
      simp only [loopLen]
      rw [if_pos hb, if_neg heps, hconst, ih]
      omega

theorem loopLen_one_of_break (r pay b : Rat) (hb : 0 < b)
    (hs : stepBal r pay b ≤ 1 / 100) :
    ∀ fuel, loopLen r pay (fuel + 1) b = 1 := by
  intro fuel
  simp only [loopLen]
  rw [if_pos hb, if_pos hs]

theorem amortLoop_break (r e x : Rat) (s : Int) (b : Rat) (m : Nat)
    (rows : List PeriodRecord) (hb : 0 < b) (hs : stepBal r (e + x) b ≤ 1 / 100)
    (fuel : Nat) :
    amortLoop r e x s (fuel + 1) b m rows = (mkRow r e x s m b :: rows).reverse := by
  simp only [amortLoop]
  rw [if_pos hb, if_pos hs]

theorem stepIter_one (r pay b : Rat) : stepIter r pay 1 b = stepBal r pay b := rfl

theorem loopBal_one (r pay b : Rat) :
    loopBal r pay 1 b =
      if 0 < b then
        if stepBal r pay b ≤ 1 / 100 then stepBal r pay b else stepBal r pay b
      else b := rfl

theorem compute_emi_zero_rate (P : Rat) (months : Int) (hm : 0 < months) :
    compute_emi P 0 months = P / (months.toNat : Rat) := by
  have h : ((months.toNat : Rat)) = (months : Rat) := by
    exact_mod_cast Int.toNat_of_nonneg hm.le
  simp only [compute_emi, if_neg (not_le.mpr hm)]
  norm_num [h]

theorem compute_emi_pos_rate (P rate : Rat) (months : Int) (hm : 0 < months)
    (hr : rate ≠ 0) :
    compute_emi P rate months =
      P * (rate / 12 / 100) * (1 + rate / 12 / 100) ^ months.toNat /
        ((1 + rate / 12 / 100) ^ months.toNat - 1) := by
  have hr' : rate / 12 / 100 ≠ 0 :=
    div_ne_zero (div_ne_zero hr (by norm_num)) (by norm_num)
  simp only [compute_emi, if_neg (not_le.mpr hm), if_neg hr']

theorem stepIter_payoff (P rate : Rat) (months : Int) (hP : 0 ≤ P) (hrate : 0 ≤ rate)
    (hm : 0 < months) :
    stepIter (rate / 12 / 100) (compute_emi P rate months) months.toNat P = 0 := by
  have hN : 0 < months.toNat := by omega
  by_cases h0 : rate = 0
  · subst h0
    rw [compute_emi_zero_rate P months hm]
    rw [show (0 : Rat) / 12 / 100 = 0 from by norm_num,
      stepIter_zero_rate P hP months.toNat hN months.toNat le_rfl]
    simp
  · have hrpos : 0 < rate := lt_of_le_of_ne hrate (Ne.symm h0)
    have hr : 0 < rate / 12 / 100 := by positivity
    rw [compute_emi_pos_rate P rate months hm h0,
      stepIter_pos_rate P _ hP hr months.toNat hN months.toNat le_rfl]
    simp

/-! ### The annuity payment as the reciprocal of a discount-factor sum -/

theorem annuity_sum_identity (r : Rat) (hr : 0 < r) (N : Nat) (hN : 0 < N) :
    (∑ k in Finset.range N, (1 / (1 + r)) ^ (k + 1)) * (r * (1 + r) ^ N) =
      (1 + r) ^ N - 1 := by
  have h1r : (0 : Rat) < 1 + r := by linarith
  have h1rne : (1 + r : Rat) ≠ 0 := h1r.ne'
  have hne1 : (1 + r : Rat) ≠ 1 := by intro h; exact hr.ne' (by linarith)
  calc (∑ k in Finset.range N, (1 / (1 + r)) ^ (k + 1)) * (r * (1 + r) ^ N)
      = ∑ k in Finset.range N, (1 / (1 + r)) ^ (k + 1) * (r * (1 + r) ^ N) := by
        rw [Finset.sum_mul]
    _ = ∑ k in Finset.range N, r * (1 + r) ^ (N - 1 - k) := by
        apply Finset.sum_congr rfl
        intro k hk
        have hk' : k + 1 ≤ N := Finset.mem_range.mp hk
        rw [show N - 1 - k = N - (k + 1) from by omega, pow_sub₀ _ h1rne hk',
          one_div, inv_pow]
        field_simp
    _ = r * ∑ k in Finset.range N, (1 + r) ^ (N - 1 - k) := by rw [Finset.mul_sum]
    _ = r * ∑ k in Finset.range N, (1 + r) ^ k := by rw [Finset.sum_range_reflect]
    _ = r * (((1 + r) ^ N - 1) / ((1 + r) - 1)) := by rw [geom_sum_eq hne1]
    _ = (1 + r) ^ N - 1 := by
        rw [show (1 + r : Rat) - 1 = r from by ring]
        field_simp

theorem annuity_sum_pos (r : Rat) (hr : 0 < r) (N : Nat) (hN : 0 < N) :
    0 < ∑ k in Finset.range N, (1 / (1 + r)) ^ (k + 1) := by
  apply Finset.sum_pos
  · intro k _
    have h1r : (0 : Rat) < 1 + r := by linarith
    positivity
  · exact Finset.nonempty_range_iff.mpr hN.ne'

theorem emi_core_eq (P r : Rat) (hr : 0 < r) (N : Nat) (hN : 0 < N) :
    P * r * (1 + r) ^ N / ((1 + r) ^ N - 1) =
      P / ∑ k in Finset.range N, (1 / (1 + r)) ^ (k + 1) := by
  have hA : (1 : Rat) < (1 + r) ^ N := one_lt_pow₀ (by linarith) hN.ne'
  have hA1 : ((1 + r) ^ N - 1 : Rat) ≠ 0 := by
    intro h
    nlinarith
  have hS := annuity_sum_pos r hr N hN
  rw [div_eq_div_iff hA1 hS.ne']
  calc P * r * (1 + r) ^ N * (∑ k in Finset.range N, (1 / (1 + r)) ^ (k + 1))
      = P * ((∑ k in Finset.range N, (1 / (1 + r)) ^ (k + 1)) * (r * (1 + r) ^ N)) := by
        ring
    _ = P * ((1 + r) ^ N - 1) := by rw [annuity_sum_identity r hr N hN]

/-- Claim C1: `compute_emi` satisfies the closed form of the spec: result 0
for `termMonths ≤ 0`, an even split `principal / termMonths` when the
monthly rate is 0, and the standard annuity formula otherwise. -/
theorem C1_emi_matches_spec (principal annual_rate_pct : Rat) (months : Int) :
    compute_emi principal annual_rate_pct months =
      computeEMI_spec principal annual_rate_pct months := rfl

/-- Claim C10: the sensitivity grid does not depend on `base_rate` — two
calls differing only in the base rate return identical tables — and every
cell is exactly `compute_emi principal rate (int (years * 12))` for the rate
of its row and the tenure of its column. -/
theorem C10_sensitivity_ignores_base_rate (principal b1 b2 : Rat)
    (years_list rate_list : List Rat) :
    sensitivity_table principal b1 years_list rate_list =
        sensitivity_table principal b2 years_list rate_list ∧
      sensitivity_table principal b1 years_list rate_list =
        rate_list.map (fun r =>
          (r, years_list.map (fun y => compute_emi principal r (pyInt (y * 12))))) :=
  ⟨rfl, rfl⟩

/-- Claim C2, amended: a schedule is guaranteed empty when `termMonths ≤ -600`
(the iteration cap `termMonths + 600` is already 0), and when the principal
is at most 0 (the while condition fails at entry); `termMonths ≤ 0` alone
does not give an empty schedule. -/
theorem C2_schedule_empty_amended (P rate : Rat) (months start : Int) (extra : Rat) :
    (months ≤ -600 → amortization_schedule P rate months start extra = []) ∧
      (months ≤ 0 → P ≤ 0 → amortization_schedule P rate months start extra = []) := by
  constructor
  · intro h
    have hcap : (months + 600).toNat = 0 := by omega
    unfold amortization_schedule
    rw [hcap]
    rfl
  · intro _ hP
    simp only [amortization_schedule]
    rw [amortLoop_nil_of_nonpos _ _ _ _ _ _ (not_lt.mpr hP)]
    rfl

/-- Claim C2, counterexample: at `termMonths = 0` with positive principal the
schedule is not empty — the loop runs for the full 600-iteration cap and
emits 600 records. -/
theorem C2_nonempty_counterexample :
    amortization_schedule 1000 0 0 0 0 ≠ [] ∧
      (amortization_schedule 1000 0 0 0 0).length = 600 := by
  have hr : (0 : Rat) / 12 / 100 = 0 := by norm_num
  have hemi : compute_emi 1000 0 0 + 0 = 0 := by
    simp only [compute_emi, if_pos (show (0 : Int) ≤ 0 by decide)]
    norm_num
  have hstep : stepBal 0 0 1000 = 1000 := by
    norm_num [stepBal, pcOf, rawPC, clampPC, min_def]
  have hlen : (amortization_schedule 1000 0 0 0 0).length = 600 := by
    simp only [amortization_schedule]
    rw [zeroSnap_length, amortLoop_length, hr, hemi,
      loopLen_const_balance 0 0 1000 (by norm_num) (by rw [hstep]; norm_num) hstep]
    decide
  refine ⟨?_, hlen⟩
  intro hnil
  rw [hnil] at hlen
  simp at hlen

/-- Witness for the amended claim C2 at concrete inputs. -/
theorem C2_schedule_empty_witness :
    amortization_schedule 5 3 (-700) 4 2 = [] ∧
      amortization_schedule (-1) 3 0 4 2 = [] :=
  ⟨(C2_schedule_empty_amended 5 3 (-700) 4 2).1 (by decide),
   (C2_schedule_empty_amended (-1) 3 0 4 2).2 (by decide) (by norm_num)⟩

/-- Claim C3, amended: for positive principal, nonnegative rate, positive
`termMonths = N` and no extra payment, the schedule has exactly `N` records
and ends at closing balance exactly 0, provided every balance strictly
before period `N` stays above the 0.01 early-payoff epsilon (without that
proviso the loop can stop early, as the counterexample shows). -/
theorem C3_schedule_length_amended (P rate : Rat) (months start : Int)
    (hP : 0 < P) (hrate : 0 ≤ rate) (hm : 0 < months)
    (hmid : ∀ k, k < months.toNat → 0 < k →
      1 / 100 < stepIter (rate / 12 / 100) (compute_emi P rate months) k P) :
    (amortization_schedule P rate months start 0).length = months.toNat ∧
      amortization_schedule P rate months start 0 ≠ [] ∧
      ∀ rec, (amortization_schedule P rate months start 0).getLast? = some rec →
        rec.closingBalance = 0 := by
  have hN : 0 < months.toNat := by omega
  have hlen : (amortization_schedule P rate months start 0).length = months.toNat := by
    unfold amortization_schedule
    rw [zeroSnap_length, amortLoop_length]
    simp only [List.length_nil, Nat.zero_add, add_zero]
    apply loopLen_exact _ _ months.toNat _ _ hN (by omega) hP
    · intro k hk hkpos
      exact hmid k hk hkpos
    · rw [stepIter_payoff P rate months hP.le hrate hm]
      norm_num
  refine ⟨hlen, ?_, ?_⟩
  · intro hnil
    rw [hnil] at hlen
    simp at hlen
    omega
  · intro rec h
    exact zeroSnap_getLast _ rec h

/-- Claim C3, counterexample: principal 0.02, zero rate, two months, no
extra payment — the loop hits the 0.01 epsilon after the first period and
the schedule has 1 record, not 2, although the iteration cap is far from
being reached. -/
theorem C3_early_stop_counterexample :
    ¬ (amortization_schedule (1 / 50) 0 2 0 0).length = (2 : Int).toNat := by
  have hr : (0 : Rat) / 12 / 100 = 0 := by norm_num
  have hemi : compute_emi (1 / 50) 0 2 + 0 = 1 / 100 := by
    simp only [compute_emi, if_neg (show ¬ (2 : Int) ≤ 0 by decide)]
    norm_num
  have hb : (0 : Rat) < 1 / 50 := by norm_num
  have hs : stepBal 0 (1 / 100) (1 / 50) ≤ 1 / 100 := by
    norm_num [stepBal, pcOf, rawPC, clampPC, min_def]
  have hlen : (amortization_schedule (1 / 50) 0 2 0 0).length = 1 := by
    simp only [amortization_schedule]
    rw [zeroSnap_length, amortLoop_length, hr, hemi,
      show ((2 : Int) + 600).toNat = 601 + 1 from by decide,
      loopLen_one_of_break 0 (1 / 100) (1 / 50) hb hs 601]
    rfl
  rw [hlen]
  decide

/-- Witness for the amended claim C3 at a concrete input. -/
theorem C3_schedule_length_witness :
    (amortization_schedule 24 0 2 0 0).length = (2 : Int).toNat ∧
      amortization_schedule 24 0 2 0 0 ≠ [] ∧
      ∀ rec, (amortization_schedule 24 0 2 0 0).getLast? = some rec →
        rec.closingBalance = 0 :=
  C3_schedule_length_amended 24 0 2 0 (by norm_num) (by norm_num) (by norm_num)
    (by
      intro k hk hpos
      have hk1 : k = 1 := by omega
      subst hk1
      have hemi24 : compute_emi 24 0 2 = 12 := by
        simp only [compute_emi, if_neg (show ¬ (2 : Int) ≤ 0 by decide)]
        norm_num
      rw [stepIter_one, show (0 : Rat) / 12 / 100 = 0 from by norm_num, hemi24]
      norm_num [stepBal, pcOf, rawPC, clampPC, min_def])

/-- Claim C4: over the LoanTerms domain (nonnegative principal, nonnegative
rate, positive term, nonnegative extra payment) the principal portions of
the schedule sum to the original principal within 0.01. -/
theorem C4_principal_conservation (P rate : Rat) (months start : Int) (extra : Rat)
    (hP : 0 ≤ P) (hrate : 0 ≤ rate) (hm : 0 < months) (hx : 0 ≤ extra) :
    |sumPC (amortization_schedule P rate months start extra) - P| ≤ 1 / 100 := by
  have hr : 0 ≤ rate / 12 / 100 := by positivity
  unfold amortization_schedule
  rw [zeroSnap_sumPC, amortLoop_sumPC]
  have hbal_le :
      loopBal (rate / 12 / 100) (compute_emi P rate months + extra)
        ((months + 600).toNat) P ≤ 1 / 100 := by
    apply loopBal_le_eps _ _ _ _ hP
    refine ⟨months.toNat, by omega, ?_⟩
    have h1 : stepIter (rate / 12 / 100) (compute_emi P rate months + extra)
          months.toNat P ≤
        stepIter (rate / 12 / 100) (compute_emi P rate months) months.toNat P :=
      stepIter_mono hr (by linarith) _ _ _ hP le_rfl
    rw [stepIter_payoff P rate months hP hrate hm] at h1
    linarith
  have hbal_ge :
      0 ≤ loopBal (rate / 12 / 100) (compute_emi P rate months + extra)
        ((months + 600).toNat) P :=
    loopBal_nonneg _ _ _ _ hP
  rw [abs_le]
  constructor
  · simp only [sumPC, List.map_nil, List.sum_nil]
    linarith
  · simp only [sumPC, List.map_nil, List.sum_nil]
    linarith

/-- Witness for claim C4 at a concrete input. -/
theorem C4_principal_conservation_witness :
    |sumPC (amortization_schedule 1200 0 12 0 0) - 1200| ≤ 1 / 100 :=
  C4_principal_conservation 1200 0 12 0 0 (by norm_num) (by norm_num) (by norm_num)
    (by norm_num)

/-- Claim C5, amended: with nonnegative principal, every record except
possibly the final one satisfies `closingBalance = openingBalance -
principalPortion` with a nonnegative closing balance, every closing balance
in the schedule is nonnegative, and the final record closes at exactly 0;
the equality can fail on the final record because the zero-snap overwrites
its closing balance. -/
theorem C5_record_invariants_amended (P rate : Rat) (months start : Int)
    (extra : Rat) (hP : 0 ≤ P) :
    (∀ row ∈ (amortization_schedule P rate months start extra).dropLast,
        row.closingBalance = row.openingBalance - row.principalPortion ∧
          0 ≤ row.closingBalance) ∧
      (∀ row ∈ amortization_schedule P rate months start extra,
        0 ≤ row.closingBalance) ∧
      ∀ rec, (amortization_schedule P rate months start extra).getLast? = some rec →
        rec.closingBalance = 0 := by
  have hinv := amortLoop_inv (rate / 12 / 100) (compute_emi P rate months) extra start
    ((months + 600).toNat) P 0 [] hP (by simp)
  refine ⟨?_, ?_, ?_⟩
  · intro row hrow
    unfold amortization_schedule at hrow
    rw [zeroSnap_dropLast] at hrow
    have hmem : row ∈ amortLoop (rate / 12 / 100) (compute_emi P rate months) extra
        start ((months + 600).toNat) P 0 [] := by
      rw [List.dropLast_eq_take] at hrow
      exact List.take_subset _ _ hrow
    exact hinv row hmem
  · intro row hrow
    unfold amortization_schedule at hrow
    exact zeroSnap_closing_nonneg _ (fun row' h' => (hinv row' h').2) row hrow
  · intro rec h
    exact zeroSnap_getLast _ rec h

/-- Claim C5, counterexample: principal 0.015, zero rate, two months — the
single emitted record has opening balance 0.015, principal portion 0.0075,
but (after the zero-snap) closing balance 0, violating
`closingBalance = openingBalance - principalPortion`. -/
theorem C5_snap_counterexample :
    ¬ ∀ row ∈ amortization_schedule (3 / 200) 0 2 0 0,
        row.closingBalance = row.openingBalance - row.principalPortion := by
  have hr : (0 : Rat) / 12 / 100 = 0 := by norm_num
  have hemi : compute_emi (3 / 200) 0 2 = 3 / 400 := by
    simp only [compute_emi, if_neg (show ¬ (2 : Int) ≤ 0 by decide)]
    norm_num
  have hb : (0 : Rat) < 3 / 200 := by norm_num
  have hs : stepBal 0 (3 / 400 + 0) (3 / 200) ≤ 1 / 100 := by
    norm_num [stepBal, pcOf, rawPC, clampPC, min_def]
  have hsched : amortization_schedule (3 / 200) 0 2 0 0 =
      [{ mkRow 0 (3 / 400) 0 0 0 (3 / 200) with closingBalance := 0 }] := by
    simp only [amortization_schedule]
    rw [hr, hemi, show ((2 : Int) + 600).toNat = 601 + 1 from by decide,
      amortLoop_break 0 (3 / 400) 0 0 (3 / 200) 0 [] hb hs 601]
    rfl
  intro h
  have h1 := h _ (by rw [hsched]; exact List.mem_singleton.mpr rfl)
  norm_num [mkRow, pcOf, rawPC, clampPC, min_def, interestOf] at h1

/-- Witness for the amended claim C5 at a concrete input. -/
theorem C5_record_invariants_witness :
    (∀ row ∈ (amortization_schedule 100 0 1 0 0).dropLast,
        row.closingBalance = row.openingBalance - row.principalPortion ∧
          0 ≤ row.closingBalance) ∧
      (∀ row ∈ amortization_schedule 100 0 1 0 0, 0 ≤ row.closingBalance) ∧
      ∀ rec, (amortization_schedule 100 0 1 0 0).getLast? = some rec →
        rec.closingBalance = 0 :=
  C5_record_invariants_amended 100 0 1 0 0 (by norm_num)

/-- Claim C6: the loop is bounded — the schedule never has more than
`(termMonths + 600).toNat` records, for every input, convergent or not. -/
theorem C6_length_le_cap (P rate : Rat) (months start : Int) (extra : Rat) :
    (amortization_schedule P rate months start extra).length ≤ (months + 600).toNat := by
  unfold amortization_schedule
  rw [zeroSnap_length, amortLoop_length]
  simpa using loopLen_le_fuel _ _ _ _

/-- Claim C7: the EMI is strictly increasing in the annual rate, for
positive principal, positive term, and positive rates. -/
theorem C7_emi_strict_mono_rate (P : Rat) (months : Int) (rate1 rate2 : Rat)
    (hP : 0 < P) (hm : 0 < months) (h1 : 0 < rate1) (h12 : rate1 < rate2) :
    compute_emi P rate1 months < compute_emi P rate2 months := by
  have hN : 0 < months.toNat := by omega
  have hr1 : 0 < rate1 / 12 / 100 := by positivity
  have h2 : 0 < rate2 := h1.trans h12
  have hr2 : 0 < rate2 / 12 / 100 := by positivity
  rw [compute_emi_pos_rate P rate1 months hm h1.ne',
    compute_emi_pos_rate P rate2 months hm h2.ne',
    emi_core_eq P _ hr1 _ hN, emi_core_eq P _ hr2 _ hN]
  apply div_lt_div_of_pos_left hP (annuity_sum_pos _ hr2 _ hN)
  apply Finset.sum_lt_sum_of_nonempty (Finset.nonempty_range_iff.mpr hN.ne')
  intro k _
  have h1a : (0 : Rat) < 1 + rate1 / 12 / 100 := by linarith
  have hlt : 1 / (1 + rate2 / 12 / 100) < 1 / (1 + rate1 / 12 / 100) :=
    one_div_lt_one_div_of_lt h1a (by linarith)
  exact pow_lt_pow_left₀ hlt (by positivity) (by omega)

/-- Witness for claim C7 at a concrete input. -/
theorem C7_emi_strict_mono_rate_witness :
    compute_emi 1000 1 12 < compute_emi 1000 2 12 :=
  C7_emi_strict_mono_rate 1000 12 1 2 (by norm_num) (by norm_num) (by norm_num)
    (by norm_num)

/-- Claim C8: with nonnegative principal and rate, a positive extra monthly
payment never lengthens the schedule relative to the same terms with no
extra payment. -/
theorem C8_extra_shortens (P rate : Rat) (months start : Int) (extra : Rat)
    (hP : 0 ≤ P) (hrate : 0 ≤ rate) (hx : 0 < extra) :
    (amortization_schedule P rate months start extra).length ≤
      (amortization_schedule P rate months start 0).length := by
  have hr : 0 ≤ rate / 12 / 100 := by positivity
  unfold amortization_schedule
  rw [zeroSnap_length, zeroSnap_length, amortLoop_length, amortLoop_length]
  simp only [List.length_nil, Nat.zero_add]
  exact loopLen_anti hr (by linarith) _ _ _ hP le_rfl

/-- Witness for claim C8 at a concrete input. -/
theorem C8_extra_shortens_witness :
    (amortization_schedule 1200 0 12 0 100).length ≤
      (amortization_schedule 1200 0 12 0 0).length :=
  C8_extra_shortens 1200 0 12 0 100 (by norm_num) (by norm_num) (by norm_num)

/-- Claim C9: when the loop exits with a balance still above the 0.01
epsilon (which only happens when the iteration cap stops it) and the cap
allows at least one iteration, the returned schedule is nonempty and its
final record still closes at exactly 0 because of the zero-snap. -/
theorem C9_truncated_zero_snap (P rate : Rat) (months start : Int) (extra : Rat)
    (hcap : 0 < (months + 600).toNat)
    (hbal : 1 / 100 < loopBal (rate / 12 / 100) (compute_emi P rate months + extra)
      ((months + 600).toNat) P) :
    amortization_schedule P rate months start extra ≠ [] ∧
      ∀ rec, (amortization_schedule P rate months start extra).getLast? = some rec →
        rec.closingBalance = 0 := by
  constructor
  · intro hnil
    have hlen : (amortization_schedule P rate months start extra).length = 0 := by
      rw [hnil]
      rfl
    unfold amortization_schedule at hlen
    rw [zeroSnap_length, amortLoop_length] at hlen
    simp only [List.length_nil, Nat.zero_add] at hlen
    obtain ⟨f, hf⟩ : ∃ f, (months + 600).toNat = f + 1 := ⟨(months + 600).toNat - 1, by omega⟩
    rw [hf] at hlen hbal
    by_cases hbpos : 0 < P
    · simp only [loopLen, if_pos hbpos] at hlen
      split_ifs at hlen <;> omega
    · simp only [loopBal, if_neg hbpos] at hbal
      have : P ≤ 0 := not_lt.mp hbpos
      linarith
  · intro rec h
    exact zeroSnap_getLast _ rec h

/-- Witness for claim C9 at a concrete input: `termMonths = -599` gives an
iteration cap of 1; the EMI is 0 and the interest guard zeroes the principal
component, so the loop exits at the cap with the full balance outstanding,
yet the single emitted record closes at 0. -/
theorem C9_truncated_zero_snap_witness :
    amortization_schedule 1000 7 (-599) 0 0 ≠ [] ∧
      ∀ rec, (amortization_schedule 1000 7 (-599) 0 0).getLast? = some rec →
        rec.closingBalance = 0 :=
  C9_truncated_zero_snap 1000 7 (-599) 0 0 (by decide)
    (by
      have hemi : compute_emi 1000 7 (-599) + 0 = 0 := by
        simp only [compute_emi, if_pos (show (-599 : Int) ≤ 0 by decide)]
        norm_num
      rw [show ((-599 : Int) + 600).toNat = 1 from by decide, hemi, loopBal_one]
      have hsb : stepBal (7 / 12 / 100) 0 1000 = 1000 := by
        norm_num [stepBal, pcOf, rawPC, clampPC, min_def]
      rw [hsb]
      norm_num)
